import Mathlib

/-!
Shallow embedding of the Ising-model simulation core (services/isingCore.ts and
the App tick loop / button handlers of App.tsx).

Conventions of the embedding:
* The mutable `Int8Array` lattice is a `List Int`; in-place mutation becomes
  explicit state passing (functions that may write the array return its new
  value).
* `Math.random()` draws are an injected capability: site picks and acceptance
  draws arrive as explicit arguments (the design notes of the repository call
  for exactly this substitution for deterministic testing).
* JS `number` is modelled as `ℝ` where the code computes `Math.exp`
  (temperature, acceptance draws) and as `ℚ` where the code only does
  floor/add/subtract arithmetic (the speed accumulator).
* The analyzer's `while (queue.length > 0)` loop is given an explicit pop
  budget (fuel); `none` signals budget exhaustion, and we prove the budget
  `N * N` used by `analyzeDomains` is never exhausted.
-/

/-- Source `createGrid`: fills `n * n` cells, each `Math.random() > 0.5 ? 1 : -1`;
the per-cell coin flips are the injected randomness. -/
def createGrid (n : Nat) (coins : Nat → Bool) : List Int :=
  (List.range (n * n)).map fun i => if coins i then 1 else -1

/-- Source `performMCS` body: the four toroidal neighbors of site `idx`
(`x = idx % N`, `y = idx / N`) and their spin sum.  The code's
`(x - 1 + N) % N` on JS numbers is written `(x + N - 1) % N` (equal for
`0 ≤ x`, `1 ≤ N`, and free of ℕ-subtraction truncation). -/
def neighborSum (grid : List Int) (N idx : Nat) : Int :=
  let x := idx % N
  let y := idx / N
  let left := grid.getD (y * N + (x + N - 1) % N) 0
  let right := grid.getD (y * N + (x + 1) % N) 0
  let top := grid.getD ((y + N - 1) % N * N + x) 0
  let bottom := grid.getD ((y + 1) % N * N + x) 0
  left + right + top + bottom

/-- Source: `const dE = 2 * s * neighborSum` with `s = grid[idx]`. -/
def deltaE (grid : List Int) (N idx : Nat) : Int :=
  2 * grid.getD idx 0 * neighborSum grid N idx

/-- Source acceptance table: `[4, 8].forEach(dE => expTable[dE] = Math.exp(-dE / temperature))`.
A lookup at any other key is JS `undefined`, modelled as `none`. -/
noncomputable def expTable (T : ℝ) (dE : Int) : Option ℝ :=
  if dE = 4 ∨ dE = 8 then some (Real.exp (-(dE : ℝ) / T)) else none

/-- JS comparison `u < expTable[dE]`: comparison against `undefined` is false. -/
def ltTable (u : ℝ) : Option ℝ → Prop
  | none => False
  | some p => u < p

open scoped Classical in
/-- One flip attempt of the `performMCS` loop at picked site `idx` with
acceptance draw `u`: flip unconditionally when `dE <= 0`, otherwise flip iff
`u < expTable[dE]`. -/
noncomputable def attemptFlip (grid : List Int) (N : Nat) (T : ℝ) (idx : Nat) (u : ℝ) :
    List Int :=
  let s := grid.getD idx 0
  let dE := deltaE grid N idx
  if dE ≤ 0 then grid.set idx (-s)
  else if ltTable u (expTable T dE) then grid.set idx (-s)
  else grid

/-- Source `performMCS`: a sweep is a sequence of flip attempts; `rands`
supplies, per attempt, the picked site and the acceptance draw (a full sweep
uses `size * size` attempts). -/
noncomputable def performMCS (grid : List Int) (size : Nat) (temperature : ℝ)
    (rands : List (Nat × ℝ)) : List Int :=
  rands.foldl (fun g r => attemptFlip g size temperature r.1 r.2) grid

/-- Any number of `performMCS` calls in sequence. -/
noncomputable def runSweeps (grid : List Int) (size : Nat) (temperature : ℝ)
    (sweeps : List (List (Nat × ℝ))) : List Int :=
  sweeps.foldl (fun g r => performMCS g size temperature r) grid

/-- Source `getIdx` of `analyzeDomains`: `(x, y) ↦ y * N + x`. -/
def getIdx (N x y : Nat) : Nat := y * N + x

/-- The four toroidal neighbor indices of `curr`, in the order the source
lists them: right, left, down, up. -/
def neighborIdxs (N curr : Nat) : List Nat :=
  let cx := curr % N
  let cy := curr / N
  [getIdx N ((cx + 1) % N) cy,
   getIdx N ((cx + N - 1) % N) cy,
   getIdx N cx ((cy + 1) % N),
   getIdx N cx ((cy + N - 1) % N)]

/-- Loop body of the source's neighbor scan: push an unvisited same-spin
neighbor and mark it visited.  State is (queue, grid, visited); the queue's
head is the source array's end (`push` conses, `pop()` takes the head). -/
def pushNeighbor (spinType : Int) (st : List Nat × List Int × List Bool) (nIdx : Nat) :
    List Nat × List Int × List Bool :=
  if st.2.2.getD nIdx true = false ∧ st.2.1.getD nIdx 0 = spinType then
    (nIdx :: st.1, st.2.1, st.2.2.set nIdx true)
  else st

/-- Source `while (queue.length > 0)` flood fill, with an explicit pop budget
`fuel`; each iteration pops `curr`, increments the cluster size, and scans the
four neighbors.  `none` means the budget was exhausted with a nonempty queue
(proved unreachable for the budget `analyzeDomains` uses). -/
def floodLoop (N : Nat) (spinType : Int) :
    Nat → List Nat → List Int → List Bool → Nat → Option (List Int × List Bool × Nat)
  | _, [], grid, visited, size => some (grid, visited, size)
  | 0, _ :: _, _, _, _ => none
  | fuel + 1, curr :: rest, grid, visited, size =>
      let st := (neighborIdxs N curr).foldl (pushNeighbor spinType) (rest, grid, visited)
      floodLoop N spinType fuel st.1 st.2.1 st.2.2 (size + 1)

/-- Body of the source's `for y / for x` scan over start cells: skip a visited
cell, otherwise mark it, flood its component (budget `N * N` pops) and record
the component size. -/
def analyzeStep (N : Nat) (st : Option (List Int × List Bool × List Nat)) (startIdx : Nat) :
    Option (List Int × List Bool × List Nat) :=
  match st with
  | none => none
  | some (grid, visited, sizes) =>
    if visited.getD startIdx true then some (grid, visited, sizes)
    else
      match floodLoop N (grid.getD startIdx 0) (N * N) [startIdx] grid
          (visited.set startIdx true) 0 with
      | none => none
      | some (g, v, sz) => some (g, v, sizes ++ [sz])

/-- The full scan of `analyzeDomains`: start cells `y * N + x` are visited in
exactly the source's order, i.e. indices `0, 1, ..., N*N - 1`; `visited`
starts as `new Uint8Array(N * N)` (all zeros). -/
def analyzeRun (grid : List Int) (N : Nat) : Option (List Int × List Bool × List Nat) :=
  (List.range (N * N)).foldl (analyzeStep N) (some (grid, List.replicate (N * N) false, []))

/-- Source aggregation: tally `clusterSizes` into `distribution`, emit
`(size, count)` pairs sorted ascending by size (`Object.entries` + `.sort`);
the keys are the distinct recorded sizes. -/
def tally (sizes : List Nat) : List (Nat × Nat) :=
  (List.insertionSort (· ≤ ·) sizes.dedup).map fun s => (s, sizes.count s)

/-- Source `analyzeDomains`, with the threaded array state: returns the final
grid state alongside the distribution. -/
def analyzeDomainsM (grid : List Int) (N : Nat) : Option (List Int × List (Nat × Nat)) :=
  (analyzeRun grid N).map fun st => (st.1, tally st.2.2)

/-- The value `analyzeDomains` returns to its caller. -/
def analyzeDomains (grid : List Int) (N : Nat) : Option (List (Nat × Nat)) :=
  (analyzeDomainsM grid N).map Prod.snd

/-- Total wrapper used by the App handlers (the `none` fallback is proved
unreachable: the pop budget always suffices). -/
def analyzeStats (grid : List Int) (N : Nat) : List (Nat × Nat) :=
  (analyzeDomains grid N).getD []

/-- Number of unvisited (`0`) entries of the `visited` array: the analyzer's
termination measure together with the queue length. -/
def countFalse (v : List Bool) : Nat := v.countP fun b => !b

/-- One tick of the source accumulator logic
(`accumulator += speed; updates = floor(accumulator); if (updates > 0) accumulator -= updates`):
returns the new accumulator and the number of sweeps to run this tick. -/
def schedTick (acc f : ℚ) : ℚ × ℤ :=
  let acc1 := acc + f
  let updates := ⌊acc1⌋
  if 0 < updates then (acc1 - updates, updates) else (acc1, 0)

/-- The scheduler driven for `n` ticks at constant speed `f`, starting from
accumulator `0`; also accumulates the total number of sweeps executed. -/
def schedRun (f : ℚ) : Nat → ℚ × ℕ
  | 0 => (0, 0)
  | n + 1 =>
      let p := schedRun f n
      let t := schedTick p.1 f
      (t.1, p.2 + t.2.toNat)

/-- The mutable App state the tick loop and the button handlers touch. -/
structure AppState where
  size : Nat
  temperature : ℝ
  grid : List Int
  stats : List (Nat × Nat)
  accumulator : ℚ
  frameCount : Nat
  isRunning : Bool

/-- Source `loop` (one `requestAnimationFrame` tick): when running, feed the
accumulator, run `floor` many sweeps, bump the frame counter, and re-analyze
iff `speed < 1 || frameCount % 10 === 0`.  The returned `Bool` is the source's
`shouldUpdateStats` (false when no sweep ran).  `sweepRands` supplies the
randomness of the i-th sweep of this tick. -/
noncomputable def loop (s : AppState) (f : ℚ) (sweepRands : Nat → List (Nat × ℝ)) :
    AppState × Bool :=
  if s.isRunning = true then
    let t := schedTick s.accumulator f
    if 0 < t.2 then
      let g :=
        (List.range t.2.toNat).foldl
          (fun g i => performMCS g s.size s.temperature (sweepRands i)) s.grid
      let fc := s.frameCount + 1
      if f < 1 ∨ fc % 10 = 0 then
        ({ s with grid := g, accumulator := t.1, frameCount := fc,
                  stats := analyzeStats g s.size }, true)
      else
        ({ s with grid := g, accumulator := t.1, frameCount := fc }, false)
    else ({ s with accumulator := t.1 }, false)
  else (s, false)

/-- Source `handleReset`: fresh random grid, stats cleared, simulation stopped,
frame counter and accumulator zeroed.  No sweep and no analysis is performed. -/
def handleReset (s : AppState) (coins : Nat → Bool) : AppState :=
  { s with grid := createGrid s.size coins, stats := [], isRunning := false,
           frameCount := 0, accumulator := 0 }

/-- Source `handleStep`: exactly one `performMCS` followed by one
`analyzeDomains`; the accumulator and frame counter are untouched. -/
noncomputable def handleStep (s : AppState) (rands : List (Nat × ℝ)) : AppState :=
  let g := performMCS s.grid s.size s.temperature rands
  { s with grid := g, stats := analyzeStats g s.size }

/-! ### Spin validity and the energy delta -/

theorem getD_valid {grid : List Int} (hval : ∀ s ∈ grid, s = 1 ∨ s = -1)
    {j : Nat} (h : j < grid.length) : grid.getD j 0 = 1 ∨ grid.getD j 0 = -1 := by
  rw [List.getD_eq_getElem grid 0 h]
  exact hval _ (List.getElem_mem h)

theorem idx_bound {N x y : Nat} (hx : x < N) (hy : y < N) : y * N + x < N * N :=
  calc y * N + x < y * N + N := by omega
    _ = (y + 1) * N := by ring
    _ ≤ N * N := Nat.mul_le_mul_right N hy

theorem dE_cases (s a b c d : Int) (hs : s = 1 ∨ s = -1) (ha : a = 1 ∨ a = -1)
    (hb : b = 1 ∨ b = -1) (hc : c = 1 ∨ c = -1) (hd : d = 1 ∨ d = -1) :
    2 * s * (a + b + c + d) ∈ ([-8, -4, 0, 4, 8] : List Int) := by
  rcases hs with rfl | rfl <;> rcases ha with rfl | rfl <;> rcases hb with rfl | rfl <;>
    rcases hc with rfl | rfl <;> rcases hd with rfl | rfl <;> decide

theorem deltaE_mem {grid : List Int} {N idx : Nat} (hval : ∀ s ∈ grid, s = 1 ∨ s = -1)
    (hlen : grid.length = N * N) (hidx : idx < N * N) :
    deltaE grid N idx ∈ ([-8, -4, 0, 4, 8] : List Int) := by
  have hN : 0 < N := by
    rcases Nat.eq_zero_or_pos N with h0 | h0
    · subst h0; simp at hidx
    · exact h0
  have hx : idx % N < N := Nat.mod_lt _ hN
  have hy : idx / N < N := Nat.div_lt_of_lt_mul hidx
  have ha : grid.getD (idx / N * N + (idx % N + N - 1) % N) 0 = 1 ∨
      grid.getD (idx / N * N + (idx % N + N - 1) % N) 0 = -1 :=
    getD_valid hval (by have := idx_bound (Nat.mod_lt (idx % N + N - 1) hN) hy; omega)
  have hb : grid.getD (idx / N * N + (idx % N + 1) % N) 0 = 1 ∨
      grid.getD (idx / N * N + (idx % N + 1) % N) 0 = -1 :=
    getD_valid hval (by have := idx_bound (Nat.mod_lt (idx % N + 1) hN) hy; omega)
  have hc : grid.getD ((idx / N + N - 1) % N * N + idx % N) 0 = 1 ∨
      grid.getD ((idx / N + N - 1) % N * N + idx % N) 0 = -1 :=
    getD_valid hval (by have := idx_bound hx (Nat.mod_lt (idx / N + N - 1) hN); omega)
  have hd : grid.getD ((idx / N + 1) % N * N + idx % N) 0 = 1 ∨
      grid.getD ((idx / N + 1) % N * N + idx % N) 0 = -1 :=
    getD_valid hval (by have := idx_bound hx (Nat.mod_lt (idx / N + 1) hN); omega)
  have hs : grid.getD idx 0 = 1 ∨ grid.getD idx 0 = -1 := getD_valid hval (by omega)
  exact dE_cases _ _ _ _ _ hs ha hb hc hd

theorem deltaE_pos_cases {grid : List Int} {N idx : Nat} (hval : ∀ s ∈ grid, s = 1 ∨ s = -1)
    (hlen : grid.length = N * N) (hidx : idx < N * N) (hpos : 0 < deltaE grid N idx) :
    deltaE grid N idx = 4 ∨ deltaE grid N idx = 8 := by
  have h := deltaE_mem hval hlen hidx
  simp only [List.mem_cons, List.not_mem_nil, or_false] at h
  omega

/-! ### Branch behavior of one flip attempt -/

theorem attemptFlip_of_nonpos {grid : List Int} {N idx : Nat} (T u : ℝ)
    (h : deltaE grid N idx ≤ 0) :
    attemptFlip grid N T idx u = grid.set idx (-(grid.getD idx 0)) := by
  simp only [attemptFlip]
  rw [if_pos h]

theorem attemptFlip_of_accept {grid : List Int} {N idx : Nat} {T u : ℝ}
    (h : ¬ deltaE grid N idx ≤ 0) (hu : ltTable u (expTable T (deltaE grid N idx))) :
    attemptFlip grid N T idx u = grid.set idx (-(grid.getD idx 0)) := by
  simp only [attemptFlip]
  rw [if_neg h, if_pos hu]

theorem attemptFlip_of_reject {grid : List Int} {N idx : Nat} {T u : ℝ}
    (h : ¬ deltaE grid N idx ≤ 0) (hu : ¬ ltTable u (expTable T (deltaE grid N idx))) :
    attemptFlip grid N T idx u = grid := by
  simp only [attemptFlip]
  rw [if_neg h, if_neg hu]

theorem expTable_of_key (T : ℝ) {dE : Int} (h : dE = 4 ∨ dE = 8) :
    expTable T dE = some (Real.exp (-(dE : ℝ) / T)) := by
  unfold expTable
  rw [if_pos h]

theorem ltTable_some (u p : ℝ) : ltTable u (some p) ↔ u < p := Iff.rfl

theorem set_neg_ne {grid : List Int} {idx : Nat} (hidx : idx < grid.length)
    (hs : grid.getD idx 0 = 1 ∨ grid.getD idx 0 = -1) :
    grid.set idx (-(grid.getD idx 0)) ≠ grid := by
  intro hEq
  have h1 := congrArg (fun l => l[idx]?) hEq
  simp only [List.getElem?_set_self hidx] at h1
  rw [List.getElem?_eq_getElem hidx] at h1
  have h2 : -(grid.getD idx 0) = grid[idx] := Option.some.inj h1
  rw [List.getD_eq_getElem grid 0 hidx] at hs h2
  rcases hs with hs | hs <;> rw [hs] at h2 <;> omega

/-- C1: in each flip attempt of `performMCS`, if `dE ≤ 0` the picked site's
spin is negated unconditionally; if `dE > 0` the spin is negated iff the
uniform draw `u` satisfies `u < exp(-dE/T)` (the acceptance-table entry for
this `dE`), and otherwise the lattice is unchanged. -/
theorem metropolis_attempt_rule (grid : List Int) (N idx : Nat) (T u : ℝ)
    (hval : ∀ s ∈ grid, s = 1 ∨ s = -1) (hlen : grid.length = N * N)
    (hidx : idx < N * N) :
    (deltaE grid N idx ≤ 0 →
        attemptFlip grid N T idx u = grid.set idx (-(grid.getD idx 0)))
    ∧ (0 < deltaE grid N idx →
        (attemptFlip grid N T idx u = grid.set idx (-(grid.getD idx 0))
            ↔ u < Real.exp (-(deltaE grid N idx : ℝ) / T))
        ∧ (¬ u < Real.exp (-(deltaE grid N idx : ℝ) / T) →
            attemptFlip grid N T idx u = grid)) := by
  have hidx' : idx < grid.length := by omega
  refine ⟨fun h => attemptFlip_of_nonpos T u h, fun hpos => ?_⟩
  have hkey := deltaE_pos_cases hval hlen hidx hpos
  have htab : expTable T (deltaE grid N idx) =
      some (Real.exp (-(deltaE grid N idx : ℝ) / T)) := expTable_of_key T hkey
  have hlt : ltTable u (expTable T (deltaE grid N idx)) ↔
      u < Real.exp (-(deltaE grid N idx : ℝ) / T) := by rw [htab]; exact Iff.rfl
  have hne : grid.set idx (-(grid.getD idx 0)) ≠ grid :=
    set_neg_ne hidx' (getD_valid hval hidx')
  have hnp : ¬ deltaE grid N idx ≤ 0 := not_le.mpr hpos
  refine ⟨⟨fun hEq => ?_, fun hu => attemptFlip_of_accept hnp (hlt.mpr hu)⟩,
    fun hu => attemptFlip_of_reject hnp (fun hl => hu (hlt.mp hl))⟩
  by_contra hu
  have hrej := attemptFlip_of_reject hnp (by rw [hlt]; exact hu)
  exact hne (hEq.symm.trans hrej)

theorem metropolis_attempt_rule_witness :
    (∀ s ∈ ([1, -1, 1, 1] : List Int), s = 1 ∨ s = -1)
    ∧ (deltaE [1, -1, 1, 1] 2 0 ≤ 0 →
        attemptFlip [1, -1, 1, 1] 2 (1 : ℝ) 0 (1 / 2) =
          ([1, -1, 1, 1] : List Int).set 0 (-(([1, -1, 1, 1] : List Int).getD 0 0))) :=
  ⟨by decide, (metropolis_attempt_rule [1, -1, 1, 1] 2 0 1 (1 / 2) (by decide) (by decide)
      (by decide)).1⟩

/-- C5: for every site of a valid lattice the computed energy delta lies in
{-8, -4, 0, 4, 8}; when positive it is 4 or 8, a key of the acceptance table. -/
theorem deltaE_domain (grid : List Int) (N idx : Nat) (T : ℝ)
    (hval : ∀ s ∈ grid, s = 1 ∨ s = -1) (hlen : grid.length = N * N)
    (hidx : idx < N * N) :
    deltaE grid N idx ∈ ([-8, -4, 0, 4, 8] : List Int)
    ∧ (0 < deltaE grid N idx →
        (deltaE grid N idx = 4 ∨ deltaE grid N idx = 8)
        ∧ expTable T (deltaE grid N idx) =
            some (Real.exp (-(deltaE grid N idx : ℝ) / T))) := by
  refine ⟨deltaE_mem hval hlen hidx, fun hpos => ?_⟩
  have h := deltaE_pos_cases hval hlen hidx hpos
  exact ⟨h, expTable_of_key T h⟩

theorem deltaE_domain_witness :
    ([1, 1, 1, 1] : List Int).length = 2 * 2
    ∧ deltaE [1, 1, 1, 1] 2 0 ∈ ([-8, -4, 0, 4, 8] : List Int) :=
  ⟨by decide, (deltaE_domain [1, 1, 1, 1] 2 0 1 (by decide) (by decide) (by decide)).1⟩

/-! ### The lattice invariant, preserved by every flip attempt -/

theorem attemptFlip_cases (grid : List Int) (N : Nat) (T : ℝ) (idx : Nat) (u : ℝ) :
    attemptFlip grid N T idx u = grid.set idx (-(grid.getD idx 0))
    ∨ attemptFlip grid N T idx u = grid := by
  simp only [attemptFlip]
  split_ifs <;> simp

theorem attemptFlip_length (grid : List Int) (N : Nat) (T : ℝ) (idx : Nat) (u : ℝ) :
    (attemptFlip grid N T idx u).length = grid.length := by
  rcases attemptFlip_cases grid N T idx u with h | h <;> simp [h]

theorem attemptFlip_valid {grid : List Int} (N : Nat) (T : ℝ) (idx : Nat) (u : ℝ)
    (hval : ∀ s ∈ grid, s = 1 ∨ s = -1) :
    ∀ s ∈ attemptFlip grid N T idx u, s = 1 ∨ s = -1 := by
  rcases attemptFlip_cases grid N T idx u with h | h <;> rw [h]
  · by_cases hi : idx < grid.length
    · intro s hs
      rcases List.mem_or_eq_of_mem_set hs with h2 | h2
      · exact hval s h2
      · subst h2
        rcases getD_valid hval hi with h3 | h3 <;> rw [h3] <;> decide
    · rw [List.set_eq_of_length_le (Nat.le_of_not_lt hi)]
      exact hval
  · exact hval

theorem performMCS_length (size : Nat) (T : ℝ) (rands : List (Nat × ℝ)) :
    ∀ grid : List Int, (performMCS grid size T rands).length = grid.length := by
  induction rands with
  | nil => intro grid; rfl
  | cons r rs ih =>
      intro grid
      have h1 : performMCS grid size T (r :: rs) =
          performMCS (attemptFlip grid size T r.1 r.2) size T rs := rfl
      rw [h1, ih, attemptFlip_length]

theorem performMCS_valid (size : Nat) (T : ℝ) (rands : List (Nat × ℝ)) :
    ∀ grid : List Int, (∀ s ∈ grid, s = 1 ∨ s = -1) →
      ∀ s ∈ performMCS grid size T rands, s = 1 ∨ s = -1 := by
  induction rands with
  | nil => intro grid h; exact h
  | cons r rs ih =>
      intro grid h
      exact ih _ (attemptFlip_valid size T r.1 r.2 h)

theorem runSweeps_length (size : Nat) (T : ℝ) (sweeps : List (List (Nat × ℝ))) :
    ∀ grid : List Int, (runSweeps grid size T sweeps).length = grid.length := by
  induction sweeps with
  | nil => intro grid; rfl
  | cons r rs ih =>
      intro grid
      have h1 : runSweeps grid size T (r :: rs) =
          runSweeps (performMCS grid size T r) size T rs := rfl
      rw [h1, ih, performMCS_length]

theorem runSweeps_valid (size : Nat) (T : ℝ) (sweeps : List (List (Nat × ℝ))) :
    ∀ grid : List Int, (∀ s ∈ grid, s = 1 ∨ s = -1) →
      ∀ s ∈ runSweeps grid size T sweeps, s = 1 ∨ s = -1 := by
  induction sweeps with
  | nil => intro grid h; exact h
  | cons r rs ih =>
      intro grid h
      exact ih _ (performMCS_valid size T r grid h)

theorem createGrid_length (n : Nat) (coins : Nat → Bool) :
    (createGrid n coins).length = n * n := by
  simp [createGrid]

theorem createGrid_valid (n : Nat) (coins : Nat → Bool) :
    ∀ s ∈ createGrid n coins, s = 1 ∨ s = -1 := by
  intro s hs
  simp only [createGrid, List.mem_map] at hs
  obtain ⟨i, -, rfl⟩ := hs
  by_cases h : coins i <;> simp [h]

/-- C4: every lattice state reachable by `createGrid` followed by any number of
`performMCS` calls has length N² and holds only spins +1 or -1. -/
theorem reachable_lattice_invariant (n : Nat) (coins : Nat → Bool) (T : ℝ)
    (sweeps : List (List (Nat × ℝ))) :
    (runSweeps (createGrid n coins) n T sweeps).length = n * n
    ∧ ∀ s ∈ runSweeps (createGrid n coins) n T sweeps, s = 1 ∨ s = -1 :=
  ⟨by rw [runSweeps_length, createGrid_length],
   runSweeps_valid n T sweeps _ (createGrid_valid n coins)⟩

/-! ### The analyzer: measure bookkeeping for the flood fill -/

theorem countFalse_le (v : List Bool) : countFalse v ≤ v.length :=
  List.countP_le_length _

theorem countFalse_set_true {v : List Bool} {n : Nat} (h : v.getD n true = false) :
    countFalse (v.set n true) + 1 = countFalse v := by
  induction v generalizing n with
  | nil => simp at h
  | cons b t ih =>
      cases n with
      | zero =>
          simp only [List.getD_cons_zero] at h
          subst h
          simp [countFalse, List.countP_cons]
      | succ m =>
          simp only [List.getD_cons_succ] at h
          have h2 := ih h
          simp only [List.set_cons_succ, countFalse, List.countP_cons] at h2 ⊢
          omega

theorem countFalse_eq_zero {v : List Bool} (h : ∀ j, v.getD j true = true) :
    countFalse v = 0 := by
  induction v with
  | nil => rfl
  | cons b t ih =>
      have h0 := h 0
      simp only [List.getD_cons_zero] at h0
      have ht : ∀ j, t.getD j true = true := fun j => by simpa using h (j + 1)
      subst h0
      have h3 : countFalse (true :: t) = countFalse t := by
        simp [countFalse, List.countP_cons]
      rw [h3]
      exact ih ht

theorem getD_set_true {v : List Bool} :
    ∀ (n j : Nat), v.getD j true = true → (v.set n true).getD j true = true := by
  induction v with
  | nil => intro n j h; simp
  | cons b t ih =>
      intro n j h
      cases n with
      | zero =>
          cases j with
          | zero => simp
          | succ m => simpa using h
      | succ k =>
          cases j with
          | zero => simpa using h
          | succ m => simpa using ih k m (by simpa using h)

theorem pushNeighbor_grid (sp : Int) (st : List Nat × List Int × List Bool) (n : Nat) :
    (pushNeighbor sp st n).2.1 = st.2.1 := by
  unfold pushNeighbor
  split_ifs <;> rfl

theorem pushNeighbor_vlen (sp : Int) (st : List Nat × List Int × List Bool) (n : Nat) :
    (pushNeighbor sp st n).2.2.length = st.2.2.length := by
  unfold pushNeighbor
  split_ifs <;> simp

theorem pushNeighbor_measure (sp : Int) (st : List Nat × List Int × List Bool) (n : Nat) :
    countFalse (pushNeighbor sp st n).2.2 + (pushNeighbor sp st n).1.length
      = countFalse st.2.2 + st.1.length := by
  unfold pushNeighbor
  split_ifs with h
  · simp only [List.length_cons]
    have h2 := countFalse_set_true h.1
    omega
  · rfl

theorem pushNeighbor_mono (sp : Int) (st : List Nat × List Int × List Bool) (n : Nat)
    {j : Nat} (h : st.2.2.getD j true = true) :
    (pushNeighbor sp st n).2.2.getD j true = true := by
  unfold pushNeighbor
  split_ifs with hc
  · exact getD_set_true n j h
  · exact h

theorem pushList_grid (sp : Int) (ns : List Nat) :
    ∀ st : List Nat × List Int × List Bool, (ns.foldl (pushNeighbor sp) st).2.1 = st.2.1 := by
  induction ns with
  | nil => intro st; rfl
  | cons n ns ih => intro st; rw [List.foldl_cons, ih, pushNeighbor_grid]

theorem pushList_vlen (sp : Int) (ns : List Nat) :
    ∀ st : List Nat × List Int × List Bool,
      (ns.foldl (pushNeighbor sp) st).2.2.length = st.2.2.length := by
  induction ns with
  | nil => intro st; rfl
  | cons n ns ih => intro st; rw [List.foldl_cons, ih, pushNeighbor_vlen]

theorem pushList_measure (sp : Int) (ns : List Nat) :
    ∀ st : List Nat × List Int × List Bool,
      countFalse (ns.foldl (pushNeighbor sp) st).2.2 + (ns.foldl (pushNeighbor sp) st).1.length
        = countFalse st.2.2 + st.1.length := by
  induction ns with
  | nil => intro st; rfl
  | cons n ns ih => intro st; rw [List.foldl_cons, ih, pushNeighbor_measure]

theorem pushList_mono (sp : Int) (ns : List Nat) :
    ∀ (st : List Nat × List Int × List Bool) (j : Nat), st.2.2.getD j true = true →
      (ns.foldl (pushNeighbor sp) st).2.2.getD j true = true := by
  induction ns with
  | nil => intro st j h; exact h
  | cons n ns ih =>
      intro st j h
      rw [List.foldl_cons]
      exact ih _ j (pushNeighbor_mono sp st n h)

theorem floodLoop_spec (N : Nat) (sp : Int) :
    ∀ (fuel : Nat) (q : List Nat) (grid : List Int) (v : List Bool) (sz : Nat),
      countFalse v + q.length ≤ fuel →
      ∃ v' sz', floodLoop N sp fuel q grid v sz = some (grid, v', sz')
        ∧ sz' + countFalse v' = sz + countFalse v + q.length
        ∧ v'.length = v.length
        ∧ ∀ j, v.getD j true = true → v'.getD j true = true := by
  intro fuel
  induction fuel with
  | zero =>
      intro q grid v sz h
      cases q with
      | nil => exact ⟨v, sz, rfl, by simp, rfl, fun j hj => hj⟩
      | cons c rest => simp only [List.length_cons] at h; omega
  | succ f ih =>
      intro q grid v sz h
      cases q with
      | nil => exact ⟨v, sz, rfl, by simp, rfl, fun j hj => hj⟩
      | cons c rest =>
          have hstep : floodLoop N sp (f + 1) (c :: rest) grid v sz =
              floodLoop N sp f ((neighborIdxs N c).foldl (pushNeighbor sp) (rest, grid, v)).1
                ((neighborIdxs N c).foldl (pushNeighbor sp) (rest, grid, v)).2.1
                ((neighborIdxs N c).foldl (pushNeighbor sp) (rest, grid, v)).2.2 (sz + 1) := rfl
          have hg : ((neighborIdxs N c).foldl (pushNeighbor sp) (rest, grid, v)).2.1 = grid :=
            pushList_grid sp (neighborIdxs N c) (rest, grid, v)
          have hm := pushList_measure sp (neighborIdxs N c) (rest, grid, v)
          have hvl := pushList_vlen sp (neighborIdxs N c) (rest, grid, v)
          have hmono := pushList_mono sp (neighborIdxs N c) (rest, grid, v)
          dsimp only at hm hvl hmono
          have hq : (c :: rest).length = rest.length + 1 := List.length_cons c rest
          obtain ⟨v', sz', heq, hsum, hlen, hmono'⟩ :=
            ih ((neighborIdxs N c).foldl (pushNeighbor sp) (rest, grid, v)).1
              ((neighborIdxs N c).foldl (pushNeighbor sp) (rest, grid, v)).2.1
              ((neighborIdxs N c).foldl (pushNeighbor sp) (rest, grid, v)).2.2 (sz + 1)
              (by omega)
          refine ⟨v', sz', ?_, by omega, by omega, fun j hj => hmono' j (hmono j hj)⟩
          rw [hstep, heq, hg]

theorem analyzeFold_spec (grid : List Int) (N : Nat) :
    ∀ (idxs : List Nat) (v : List Bool) (sizes : List Nat),
      v.length = N * N → sizes.sum + countFalse v = N * N →
      ∃ v' sizes',
        idxs.foldl (analyzeStep N) (some (grid, v, sizes)) = some (grid, v', sizes')
        ∧ v'.length = N * N
        ∧ sizes'.sum + countFalse v' = N * N
        ∧ (∀ j, v.getD j true = true → v'.getD j true = true)
        ∧ ∀ j ∈ idxs, v'.getD j true = true := by
  intro idxs
  induction idxs with
  | nil =>
      intro v sizes hl hs
      exact ⟨v, sizes, rfl, hl, hs, fun j hj => hj, by simp⟩
  | cons i rest ih =>
      intro v sizes hl hs
      by_cases hvis : v.getD i true = true
      · have hstep : analyzeStep N (some (grid, v, sizes)) i = some (grid, v, sizes) := by
          simp only [analyzeStep]
          rw [if_pos hvis]
        obtain ⟨v', sizes', heq, h1, h2, h3, h4⟩ := ih v sizes hl hs
        refine ⟨v', sizes', ?_, h1, h2, h3, fun j hj => ?_⟩
        · rw [List.foldl_cons, hstep, heq]
        · rcases List.mem_cons.mp hj with rfl | hj2
          · exact h3 j hvis
          · exact h4 j hj2
      · have hfalse : v.getD i true = false := by
          cases hgd : v.getD i true
          · rfl
          · exact absurd hgd hvis
        have hi : i < v.length := by
          by_contra hge
          rw [List.getD_eq_default _ _ (Nat.le_of_not_lt hge)] at hfalse
          cases hfalse
        have hcf : countFalse (v.set i true) + 1 = countFalse v := countFalse_set_true hfalse
        have hfuel : countFalse (v.set i true) + ([i] : List Nat).length ≤ N * N := by
          have hb := countFalse_le v
          simp only [List.length_singleton]
          omega
        obtain ⟨v1, sz, hflood, hsum1, hlen1, hmono1⟩ :=
          floodLoop_spec N (grid.getD i 0) (N * N) [i] grid (v.set i true) 0 hfuel
        have hstep : analyzeStep N (some (grid, v, sizes)) i =
            some (grid, v1, sizes ++ [sz]) := by
          simp only [analyzeStep]
          rw [if_neg hvis, hflood]
        have hl1 : v1.length = N * N := by rw [hlen1, List.length_set, hl]
        have hs1 : (sizes ++ [sz]).sum + countFalse v1 = N * N := by
          simp only [List.sum_append, List.sum_cons, List.sum_nil, List.length_singleton] at hsum1 ⊢
          omega
        obtain ⟨v', sizes', heq, h1, h2, h3, h4⟩ := ih v1 (sizes ++ [sz]) hl1 hs1
        refine ⟨v', sizes', ?_, h1, h2, fun j hj => ?_, fun j hj => ?_⟩
        · rw [List.foldl_cons, hstep, heq]
        · exact h3 j (hmono1 j (getD_set_true i j hj))
        · rcases List.mem_cons.mp hj with rfl | hj2
          · refine h3 j (hmono1 j ?_)
            rw [List.getD_eq_getElem _ _ (by simpa using hi)]
            simp
          · exact h4 j hj2

theorem analyzeRun_spec (grid : List Int) (N : Nat) :
    ∃ v sizes, analyzeRun grid N = some (grid, v, sizes) ∧ sizes.sum = N * N := by
  have h0 : (List.replicate (N * N) false).length = N * N := by simp
  have h1 : ([] : List Nat).sum + countFalse (List.replicate (N * N) false) = N * N := by
    simp [countFalse, List.countP_replicate]
  obtain ⟨v', sizes', heq, hl', hs', hmono, hall⟩ :=
    analyzeFold_spec grid N (List.range (N * N)) (List.replicate (N * N) false) [] h0 h1
  refine ⟨v', sizes', heq, ?_⟩
  have hz : countFalse v' = 0 := by
    apply countFalse_eq_zero
    intro j
    by_cases hj : j < N * N
    · exact hall j (List.mem_range.mpr hj)
    · exact List.getD_eq_default _ _ (by omega : v'.length ≤ j)
  omega

/-! ### The tally preserves the total cell count -/

theorem sum_mul_count_dedup (l : List Nat) :
    (l.dedup.map fun x => x * l.count x).sum = l.sum := by
  induction l with
  | nil => rfl
  | cons a as ih =>
      simp_rw [List.count_cons, Nat.mul_add, List.sum_map_add]
      by_cases h : a ∈ as
      · rw [List.dedup_cons_of_mem h, ih, List.sum_cons]
        have hsingle : (as.dedup.map fun x => x * if a == x then 1 else 0).sum = a := by
          rw [List.sum_map_eq_nsmul_single a (fun x => x * if a == x then 1 else 0)
            (fun x hne _ => by simp [Ne.symm hne])]
          simp [List.count_dedup, h]
        rw [hsingle]
        omega
      · rw [List.dedup_cons_of_not_mem h]
        simp only [List.map_cons, List.sum_cons]
        have h1 : as.count a = 0 := List.count_eq_zero.2 h
        have h2 : (as.dedup.map fun x => x * if a == x then 1 else 0).sum = 0 := by
          apply List.sum_eq_zero
          intro n hn
          obtain ⟨x, hx, rfl⟩ := List.mem_map.1 hn
          have hxa : a ≠ x := fun hEq => h (hEq ▸ List.mem_dedup.1 hx)
          simp [hxa]
        rw [ih, h1, h2, if_pos (beq_self_eq_true a)]
        omega

theorem tally_sum (sizes : List Nat) :
    ((tally sizes).map fun p => p.1 * p.2).sum = sizes.sum := by
  unfold tally
  rw [List.map_map]
  have hperm := (List.perm_insertionSort (· ≤ ·) sizes.dedup).map
    ((fun p : Nat × Nat => p.1 * p.2) ∘ fun s => (s, sizes.count s))
  rw [hperm.sum_eq]
  exact sum_mul_count_dedup sizes

theorem analyzeDomainsM_spec (grid : List Int) (N : Nat) :
    ∃ sizes, analyzeDomainsM grid N = some (grid, tally sizes) ∧ sizes.sum = N * N := by
  obtain ⟨v, sizes, heq, hsum⟩ := analyzeRun_spec grid N
  exact ⟨sizes, by simp [analyzeDomainsM, heq], hsum⟩

/-- C3: for every lattice of N² spins (N > 0), the (size, count) pairs returned
by `analyzeDomains` have size × count summing to N²: every cell is counted in
exactly one discovered domain. -/
theorem domain_partition (grid : List Int) (N : Nat) (_hN : 0 < N)
    (_hlen : grid.length = N * N) :
    ∃ d, analyzeDomains grid N = some d ∧ (d.map fun p => p.1 * p.2).sum = N * N := by
  obtain ⟨sizes, heq, hsum⟩ := analyzeDomainsM_spec grid N
  exact ⟨tally sizes, by simp [analyzeDomains, heq], by rw [tally_sum, hsum]⟩

theorem domain_partition_witness :
    0 < 2 ∧ ([1, -1, 1, 1] : List Int).length = 2 * 2
    ∧ ∃ d, analyzeDomains [1, -1, 1, 1] 2 = some d
        ∧ (d.map fun p => p.1 * p.2).sum = 2 * 2 :=
  ⟨by norm_num, by decide, domain_partition [1, -1, 1, 1] 2 (by norm_num) (by decide)⟩

/-- C9: `analyzeDomains` is pure and deterministic: the threaded lattice comes
back unmodified, and an immediately repeated call on that unmodified lattice
returns the identical (size, count) sequence. -/
theorem analyze_pure_deterministic (grid : List Int) (N : Nat) :
    ∃ g1 r1, analyzeDomainsM grid N = some (g1, r1) ∧ g1 = grid
      ∧ analyzeDomainsM g1 N = some (g1, r1) := by
  obtain ⟨sizes, heq, -⟩ := analyzeDomainsM_spec grid N
  exact ⟨grid, tally sizes, heq, rfl, heq⟩

/-- C10: `analyzeDomains` terminates on every grid: every cell is enqueued at
most once, so the flood fill never exhausts the N² pop budget; the whole run
performs exactly N² pops in total (the recorded sizes sum to N²). -/
theorem analyze_terminates (grid : List Int) (N : Nat) :
    (∃ v sizes, analyzeRun grid N = some (grid, v, sizes) ∧ sizes.sum = N * N)
    ∧ (analyzeDomains grid N).isSome = true := by
  obtain ⟨v, sizes, heq, hsum⟩ := analyzeRun_spec grid N
  exact ⟨⟨v, sizes, heq, hsum⟩, by simp [analyzeDomains, analyzeDomainsM, heq]⟩

/-! ### The step scheduler -/

theorem schedTick_spec (acc f : ℚ) (h : (0 : ℚ) ≤ acc + f) :
    (schedTick acc f).1 = acc + f - ⌊acc + f⌋ ∧ (schedTick acc f).2 = ⌊acc + f⌋ := by
  simp only [schedTick]
  have h0 : (0 : ℤ) ≤ ⌊acc + f⌋ := Int.floor_nonneg.mpr h
  split_ifs with hpos
  · exact ⟨rfl, rfl⟩
  · have h1 : ⌊acc + f⌋ = 0 := by omega
    refine ⟨?_, h1.symm⟩
    rw [h1]
    simp

theorem schedRun_closed (f : ℚ) (hf : 0 < f) (n : Nat) :
    (schedRun f n).1 = f * n - ⌊f * (n : ℚ)⌋ ∧ ((schedRun f n).2 : ℤ) = ⌊f * (n : ℚ)⌋ := by
  induction n with
  | zero => constructor <;> simp [schedRun]
  | succ n ih =>
      obtain ⟨ih1, ih2⟩ := ih
      have hsum : (schedRun f n).1 + f = f * ((n : ℚ) + 1) - ⌊f * (n : ℚ)⌋ := by
        rw [ih1]; ring
      have hge : (0 : ℚ) ≤ (schedRun f n).1 + f := by
        rw [ih1]
        have h2 : (⌊f * (n : ℚ)⌋ : ℚ) ≤ f * n := Int.floor_le _
        linarith
      obtain ⟨t1, t2⟩ := schedTick_spec (schedRun f n).1 f hge
      have hfl : ⌊(schedRun f n).1 + f⌋ = ⌊f * ((n : ℚ) + 1)⌋ - ⌊f * (n : ℚ)⌋ := by
        rw [hsum]
        exact Int.floor_sub_int _ _
      have hrw : schedRun f (n + 1) =
          ((schedTick (schedRun f n).1 f).1,
            (schedRun f n).2 + (schedTick (schedRun f n).1 f).2.toNat) := rfl
      have hnn : (0 : ℤ) ≤ (schedTick (schedRun f n).1 f).2 := by
        rw [t2]; exact Int.floor_nonneg.mpr hge
      have ht : (schedTick (schedRun f n).1 f).2 = ⌊f * ((n : ℚ) + 1)⌋ - ⌊f * (n : ℚ)⌋ := by
        rw [t2, hfl]
      rw [hrw]
      constructor
      · dsimp only
        rw [t1, hsum, Int.floor_sub_int]
        push_cast
        ring
      · dsimp only
        push_cast
        omega

/-- C2: driven from accumulator 0 for n ticks at constant speed f > 0, the
scheduler executes exactly ⌊f·n⌋ sweeps in total (so the total differs from
f·n by less than 1), and the accumulator stays in [0, 1) after every tick. -/
theorem scheduler_throughput (f : ℚ) (hf : 0 < f) (n : Nat) :
    ((schedRun f n).2 : ℤ) = ⌊f * (n : ℚ)⌋
    ∧ 0 ≤ (schedRun f n).1 ∧ (schedRun f n).1 < 1
    ∧ |f * n - ((schedRun f n).2 : ℚ)| < 1 := by
  obtain ⟨h1, h2⟩ := schedRun_closed f hf n
  have hfr0 : (0 : ℚ) ≤ f * n - ⌊f * (n : ℚ)⌋ := sub_nonneg.mpr (Int.floor_le _)
  have hfr1 : f * (n : ℚ) - ⌊f * (n : ℚ)⌋ < 1 := by
    have := Int.lt_floor_add_one (f * (n : ℚ))
    linarith
  have h3 : ((schedRun f n).2 : ℚ) = (⌊f * (n : ℚ)⌋ : ℚ) := by exact_mod_cast h2
  refine ⟨h2, by rw [h1]; exact hfr0, by rw [h1]; exact hfr1, ?_⟩
  rw [h3, abs_of_nonneg hfr0]
  exact hfr1

theorem scheduler_throughput_witness :
    (0 : ℚ) < 1 / 4
    ∧ (((schedRun (1 / 4) 4).2 : ℤ) = ⌊(1 / 4 : ℚ) * ((4 : Nat) : ℚ)⌋
        ∧ 0 ≤ (schedRun (1 / 4) 4).1 ∧ (schedRun (1 / 4) 4).1 < 1
        ∧ |(1 / 4 : ℚ) * ((4 : Nat) : ℚ) - ((schedRun (1 / 4) 4).2 : ℚ)| < 1) :=
  ⟨by norm_num, scheduler_throughput (1 / 4) (by norm_num) 4⟩

/-! ### The App handlers and the tick loop -/

/-- C6 (amended): the step-once handler performs exactly one sweep followed by
one mandatory analysis of the new lattice and leaves the scheduler state
untouched; the reset handler performs no sweep and no analysis: it installs a
fresh random lattice, clears the stats to the empty list, and zeroes the
accumulator and frame counter. -/
theorem handlers_step_reset (s : AppState) (rands : List (Nat × ℝ)) (coins : Nat → Bool) :
    (handleStep s rands).grid = performMCS s.grid s.size s.temperature rands
    ∧ (handleStep s rands).stats =
        analyzeStats (performMCS s.grid s.size s.temperature rands) s.size
    ∧ (handleStep s rands).accumulator = s.accumulator
    ∧ (handleStep s rands).frameCount = s.frameCount
    ∧ (handleReset s coins).grid = createGrid s.size coins
    ∧ (handleReset s coins).stats = []
    ∧ (handleReset s coins).accumulator = 0
    ∧ (handleReset s coins).frameCount = 0
    ∧ (handleReset s coins).isRunning = false :=
  ⟨rfl, rfl, rfl, rfl, rfl, rfl, rfl, rfl, rfl⟩

/-- C6 (counterexample): after a reset the stored stats are `[]`, which is not
the output of the mandatory domain analysis of the current 2×2 lattice
(`[(4, 1)]` — indeed no analysis of any 2×2 lattice returns `[]`, since its
size × count entries sum to 4): reset invokes neither a sweep nor an analysis. -/
theorem reset_not_one_sweep_one_analysis :
    (handleReset (AppState.mk 2 1 [1, 1, 1, 1] [(9, 9)] 5 3 true) fun _ => true).stats = []
    ∧ analyzeStats
        (handleReset (AppState.mk 2 1 [1, 1, 1, 1] [(9, 9)] 5 3 true) fun _ => true).grid 2
        = [(4, 1)]
    ∧ ([] : List (Nat × Nat)) ≠ [(4, 1)] :=
  ⟨rfl, by decide, by decide⟩

/-- C7: on a tick that executes at least one sweep, the loop re-analyzes the
lattice iff the speed factor is below 1 or this is a 10th update-executing
tick; otherwise the stats are left unchanged. -/
theorem throttle_policy (s : AppState) (f : ℚ) (rands : Nat → List (Nat × ℝ))
    (hrun : s.isRunning = true) (hupd : 0 < (schedTick s.accumulator f).2) :
    ((loop s f rands).2 = true ↔ (f < 1 ∨ (s.frameCount + 1) % 10 = 0))
    ∧ ((loop s f rands).2 = true →
        (loop s f rands).1.stats = analyzeStats (loop s f rands).1.grid s.size)
    ∧ ((loop s f rands).2 = false → (loop s f rands).1.stats = s.stats) := by
  by_cases hcond : f < 1 ∨ (s.frameCount + 1) % 10 = 0
  · refine ⟨?_, ?_, ?_⟩ <;> simp only [loop] <;>
      rw [if_pos hrun, if_pos hupd, if_pos hcond] <;> simp [hcond]
  · refine ⟨?_, ?_, ?_⟩ <;> simp only [loop] <;>
      rw [if_pos hrun, if_pos hupd, if_neg hcond] <;> simp [hcond]

theorem throttle_policy_witness :
    (AppState.mk 2 1 [1, 1, 1, 1] [] 0 9 true).isRunning = true
    ∧ (0 : ℤ) < (schedTick (AppState.mk 2 1 [1, 1, 1, 1] [] 0 9 true).accumulator 2).2
    ∧ ((loop (AppState.mk 2 1 [1, 1, 1, 1] [] 0 9 true) 2 fun _ => []).2 = true
        ↔ ((2 : ℚ) < 1 ∨ ((AppState.mk 2 1 [1, 1, 1, 1] [] 0 9 true).frameCount + 1) % 10 = 0)) :=
  ⟨rfl, by norm_num [schedTick],
    (throttle_policy (AppState.mk 2 1 [1, 1, 1, 1] [] 0 9 true) 2 (fun _ => []) rfl
      (by norm_num [schedTick])).1⟩

/-! ### The 2x2 all-up scenario -/

theorem exp_neg_eight_lt_half : Real.exp (-(8 : ℝ) / 1) < 1 / 2 := by
  rw [div_one, Real.exp_neg]
  have h9 : (9 : ℝ) ≤ Real.exp 8 := by
    have h := Real.add_one_le_exp (8 : ℝ)
    linarith
  have h2 : (2 : ℝ) < Real.exp 8 := by linarith
  calc (Real.exp 8)⁻¹ < 2⁻¹ := by
        apply inv_strictAnti₀ (by norm_num) h2
    _ = 1 / 2 := by norm_num

theorem attemptFlip_2x2_half (idx : Nat) :
    attemptFlip [1, 1, 1, 1] 2 1 idx (1 / 2) = [1, 1, 1, 1] := by
  by_cases hidx : idx < 4
  · have hdE : deltaE [1, 1, 1, 1] 2 idx = 8 := by
      interval_cases idx <;> decide
    have hnp : ¬ deltaE [1, 1, 1, 1] 2 idx ≤ 0 := by rw [hdE]; decide
    apply attemptFlip_of_reject hnp
    rw [hdE, expTable_of_key 1 (Or.inr rfl)]
    intro hlt
    have hlt2 : (1 : ℝ) / 2 < Real.exp (-((8 : Int) : ℝ) / 1) := hlt
    push_cast at hlt2
    linarith [exp_neg_eight_lt_half]
  · have h0 : ([1, 1, 1, 1] : List Int).getD idx 0 = 0 :=
      List.getD_eq_default _ _ (by simpa using Nat.le_of_not_lt hidx)
    have hdE : deltaE [1, 1, 1, 1] 2 idx = 0 := by
      unfold deltaE
      rw [h0]
      ring
    have h1 := attemptFlip_of_nonpos 1 (1 / 2) (le_of_eq hdE)
    rw [h1]
    exact List.set_eq_of_length_le (by simpa using Nat.le_of_not_lt hidx)

/-- C8: on the 2×2 all-up lattice at T = 1 every site has neighborSum 4 (the
toroidal wrap makes left and right the same cell, counted twice) and dE = 8;
with the acceptance draw stubbed to 0.5 (which is not below exp(-8)) a sweep
of any length changes no cell, and the analyzer returns exactly [(4, 1)]. -/
theorem scenario_2x2_all_up :
    (∀ idx < 4, neighborSum [1, 1, 1, 1] 2 idx = 4 ∧ deltaE [1, 1, 1, 1] 2 idx = 8)
    ∧ (∀ rands : List (Nat × ℝ), (∀ r ∈ rands, r.2 = (1 : ℝ) / 2) →
        performMCS [1, 1, 1, 1] 2 1 rands = [1, 1, 1, 1])
    ∧ analyzeDomains [1, 1, 1, 1] 2 = some [(4, 1)] := by
  refine ⟨fun idx hidx => ?_, fun rands => ?_, by decide⟩
  · interval_cases idx <;> exact ⟨by decide, by decide⟩
  · induction rands with
    | nil => intro _; rfl
    | cons r rs ih =>
        intro h
        have hr : r.2 = (1 : ℝ) / 2 := h r (List.mem_cons_self r rs)
        have hstep : performMCS [1, 1, 1, 1] 2 1 (r :: rs) =
            performMCS (attemptFlip [1, 1, 1, 1] 2 1 r.1 r.2) 2 1 rs := rfl
        rw [hstep, hr, attemptFlip_2x2_half r.1]
        exact ih fun x hx => h x (List.mem_cons_of_mem r hx)

theorem scenario_2x2_all_up_witness :
    (∀ r ∈ ([((2 : Nat), (1 : ℝ) / 2)] : List (Nat × ℝ)), r.2 = (1 : ℝ) / 2)
    ∧ performMCS [1, 1, 1, 1] 2 1 [((2 : Nat), (1 : ℝ) / 2)] = [1, 1, 1, 1] :=
  ⟨by simp, scenario_2x2_all_up.2.1 [((2 : Nat), (1 : ℝ) / 2)] (by simp)⟩
